import Mathlib

/-!
Teardown orchestrator of `pkg/uninstall/uninstall.go`

A shallow embedding of the Go package `uninstall` and the properties of its
classifier (`baseResources`, `userResources`), its planner (`sortToDelete` and
the mode switch of `Uninstall`), its delete loop and its wait loop.

Modelling conventions.

* A Go `error` obtained from a collaborator is an `Err`; `nil` is `none`.
* The resource client is deterministic in the history of the calls made so
  far: a `Client` maps the list of earlier calls and the present call to its
  reply.  Every behaviour a single run can observe is of this form.  The
  functions thread the history explicitly and return the extended history, so
  the calls a run makes, and their order, can be read off the result.
* `sort.Slice` of the Go standard library is the stable insertion sort
  (which is what the library runs on slices of fewer than 12 elements).  The
  theorems on sorted results use only that the result is a permutation of the
  input in which no element is followed by one that `less` puts before it.
* The library functions `merr.NewErrors`, `apierror.IsNotFound`,
  `strings.HasSuffix` and `ToAPIVersionAndKind` are written out after their
  library sources.  What the package takes from other packages of the
  repository (`k8sclient.Default`, `install.AllResources`,
  `system.DefaultUserNamespace`, `prompt.Bool`) and from the terminal library
  is a field of `Env`.
* The unbounded polling loop takes a fuel argument; `none` means that the
  fuel ran out before the loop ended.
* Progress messages and spinners are not modelled.
-/

namespace uninstall

/-! ## Data model -/

/-- An error value returned by a collaborator (client, manifest provider,
terminal).  `notFound` is what `apierror.IsNotFound` answers on it. -/
structure Err where
  msg : String
  notFound : Bool
deriving DecidableEq, Repr

/-- The error value `Uninstall` returns: an error passed through unchanged, or
the aggregate `merr.Errors` built by `merr.NewErrors`. -/
inductive Error where
  | of (e : Err)
  | Errors (errs : List Err)
deriving DecidableEq, Repr

/-- The errors an `Error` carries. -/
def Error.wrapped : Error → List Err
  | .of e => [e]
  | .Errors errs => errs

/-- The type `schema.GroupVersionKind`. -/
structure GroupVersionKind where
  Group : String
  Version : String
  Kind : String
deriving DecidableEq, Repr

/-- The Go type behind a `kclient.Object`; the scheme resolves kinds from it. -/
inductive GoType where
  | Namespace
  | Secret
  | PersistentVolume
  | CustomResourceDefinition
  | Other (name : String)
deriving DecidableEq, Repr

/-- A `kclient.Object`: its Go type, its `TypeMeta` and the two `ObjectMeta`
fields the package reads. -/
structure Object where
  goType : GoType
  gvk : GroupVersionKind
  Namespace : String
  Name : String
deriving DecidableEq, Repr

/-- An element of the `Items` of a typed list (`NamespaceList`, `SecretList`,
...): the Go type is fixed by the list, so an item carries only its metadata. -/
structure Item where
  gvk : GroupVersionKind
  Namespace : String
  Name : String
deriving DecidableEq, Repr

/-- The pointer `&item` taken from the `Items` of a list of type `t`. -/
def Item.toObject (t : GoType) (i : Item) : Object :=
  { goType := t, gvk := i.gvk, Namespace := i.Namespace, Name := i.Name }

/-- A call made to the resource client.  `list t managed` lists the objects of
type `t`, with the label selector `acorn.io/managed=true` when `managed`. -/
inductive Call where
  | list (t : GoType) (managed : Bool)
  | delete (obj : Object)
  | get (gvk : GroupVersionKind) (Namespace : String) (Name : String)
deriving DecidableEq, Repr

/-- The resource client (`kclient.Client`) as the package uses it.  Each reply
may depend on all the calls made before.  `gvkForObject` is
`apiutil.GVKForObject(obj, c.Scheme())`, `none` when it returns an error. -/
structure Client where
  list : List Call → GoType → Bool → Except Err (List Item)
  delete : List Call → Object → Option Err
  get : List Call → GroupVersionKind → String → String → Option Err
  gvkForObject : Object → Option GroupVersionKind

/-- What the package takes from the rest of the program: `k8sclient.Default`,
`install.AllResources`, the constant `system.DefaultUserNamespace`, the table
renderer and the colour functions of `pterm`, and `prompt.Bool`. -/
structure Env where
  Default : Except Err Client
  AllResources : Except Err (List Object)
  DefaultUserNamespace : String
  Render : List (List String) → Option Err
  promptBool : String → Bool → Except Err Bool
  Red : String → String
  Green : String → String
  Gray : String → String
  Bold : String → String

structure Options where
  All : Bool
  Force : Bool
deriving DecidableEq, Repr

/-! ## The functions of the package -/

/-- The test `apierror.IsNotFound(err)`; false on `nil`. -/
def IsNotFound : Option Err → Bool
  | none => false
  | some e => e.notFound

/-- The operator `<` of Go on strings: lexicographic on the bytes, which on
valid UTF-8 is lexicographic on the characters. -/
def stringLess (a b : String) : Bool :=
  decide (a.toList < b.toList)

/-- The function `strings.HasSuffix`. -/
def HasSuffix (s suffix : String) : Bool :=
  suffix.data.isSuffixOf s.data

/-- The method `GroupVersionKind.ToAPIVersionAndKind`. -/
def GroupVersionKind.ToAPIVersionAndKind (gvk : GroupVersionKind) : String × String :=
  if gvk.Group = "" ∧ gvk.Version = "" ∧ gvk.Kind = "" then ("", "")
  else if gvk.Group ≠ "" then (gvk.Group ++ "/" ++ gvk.Version, gvk.Kind)
  else (gvk.Version, gvk.Kind)

/-- The function `merr.NewErrors`: `nil` for no error, the error itself for one, the
aggregate otherwise. -/
def NewErrors : List Err → Option Error
  | [] => none
  | [e] => some (.of e)
  | errs => some (.Errors errs)

/-- The function `sort.Slice` with the comparison `less`: stable insertion sort. -/
def sortSlice {α : Type} (less : α → α → Bool) (xs : List α) : List α :=
  List.insertionSort (fun a b => less b a = false) xs

def key (obj : Object) : String :=
  if obj.Namespace = "" then obj.Name
  else obj.Namespace ++ "/" ++ obj.Name

/-- One round of the loop that ends `baseResources` and `userResources`: a
resource whose kind the scheme resolves gets that kind, another is left as it
is. -/
def setGVK (c : Client) (resource : Object) : Object :=
  match c.gvkForObject resource with
  | some gvk => { resource with gvk := gvk }
  | none => resource

/-- The loop that ends `baseResources` and `userResources`. -/
def setGVKs (c : Client) (resources : List Object) : List Object :=
  resources.map (setGVK c)

def baseResources (env : Env) (c : Client) (h : List Call) :
    List Call × Except Err (List Object) :=
  match env.AllResources with
  | .error err => (h, .error err)
  | .ok all =>
    let resources := all.filter fun a =>
      !(a.gvk.Kind == "Namespace" && a.Name == env.DefaultUserNamespace)
    let h1 := h ++ [Call.list .Namespace true]
    match c.list h .Namespace true with
    | .error err => (h1, .error err)
    | .ok nses =>
      let resources := resources ++ nses.map (Item.toObject .Namespace)
      let h2 := h1 ++ [Call.list .CustomResourceDefinition false]
      match c.list h1 .CustomResourceDefinition false with
      | .error err => (h2, .error err)
      | .ok crds =>
        let resources := resources ++
          (crds.filter fun crd => HasSuffix crd.Name ".internal.acorn.io").map
            (Item.toObject .CustomResourceDefinition)
        (h2, .ok (setGVKs c resources))

/-- The comparison function handed to `sort.Slice` in `sortToDelete`. -/
def sortToDelete.less (l r : Object) : Bool :=
  let lKind := l.gvk.Kind
  let rKind := r.gvk.Kind
  if lKind = rKind then stringLess (key l) (key r)
  else if lKind = "Namespace" then false
  else if rKind = "Namespace" then true
  else stringLess lKind rKind

def sortToDelete (resources : List Object) : List Object :=
  sortSlice sortToDelete.less resources

def userResources (env : Env) (c : Client) (h : List Call) :
    List Call × Except Err (List Object) :=
  let resources : List Object :=
    [{ goType := .Namespace, gvk := ⟨"", "", ""⟩, Namespace := "",
       Name := env.DefaultUserNamespace }]
  let h1 := h ++ [Call.list .Secret true]
  match c.list h .Secret true with
  | .error err => (h1, .error err)
  | .ok secrets =>
    let secrets := sortSlice
      (fun i j => stringLess (key (i.toObject .Secret)) (key (j.toObject .Secret))) secrets
    let resources := resources ++ secrets.map (Item.toObject .Secret)
    let h2 := h1 ++ [Call.list .PersistentVolume true]
    match c.list h1 .PersistentVolume true with
    | .error err => (h2, .error err)
    | .ok pvs =>
      let pvs := sortSlice
        (fun i j => stringLess (key (i.toObject .PersistentVolume))
          (key (j.toObject .PersistentVolume))) pvs
      let resources := resources ++ pvs.map (Item.toObject .PersistentVolume)
      (h2, .ok (setGVKs c resources))

/-- The rows `shouldContinue` adds to the table for the resources to delete,
with the names of the namespaces among them. -/
def shouldContinue.deleteRows (env : Env) :
    List Object → List (List String) × List String
  | [] => ([], [])
  | resource :: rest =>
    let (apiVersion, kind) := resource.gvk.ToAPIVersionAndKind
    let (rows, namespaces) := shouldContinue.deleteRows env rest
    let row (kind : String) : List String :=
      [env.Red "delete", resource.Namespace, env.Red resource.Name, kind, apiVersion]
    if kind = "Namespace" then
      (row (env.Red (env.Bold kind)) :: rows, resource.Name :: namespaces)
    else (row kind :: rows, namespaces)

/-- The row `shouldContinue` adds to the table for a resource to keep. -/
def shouldContinue.keepRow (env : Env) (namespaces : List String) (resource : Object) :
    List String :=
  let (apiVersion, kind) := resource.gvk.ToAPIVersionAndKind
  if resource.Namespace ∈ namespaces then
    [env.Red "delete", resource.Namespace, env.Red resource.Name, kind, apiVersion]
  else
    [env.Green "keep", env.Gray resource.Namespace, env.Gray resource.Name,
      env.Gray kind, env.Gray apiVersion]

def shouldContinue (env : Env) (toDelete toKeep : List Object) : Except Err Bool :=
  let (rows, namespaces) := shouldContinue.deleteRows env toDelete
  let data := [["Action", "Namespace", "Name", "Kind", "API Version"]] ++ rows ++
    toKeep.map (shouldContinue.keepRow env namespaces)
  match env.Render data with
  | some err => .error err
  | none =>
    if toKeep.length = 0 then
      env.promptBool "Do you want to delete the above resources?" false
    else
      env.promptBool ("Do you want to delete/keep the above resources? " ++
        "To delete all resources pass run \"acorn uninstall --all\"") false

/-- The mode switch and the sort of `Uninstall` (the statements between the
classification and the confirmation): the pair `(toDelete, toKeep)`. -/
def plan (base user : List Object) (all : Bool) : List Object × List Object :=
  let (toDelete, toKeep) := if all then (base ++ user, []) else (base, user)
  (sortToDelete toDelete, toKeep)

/-- The first loop of `Uninstall`: one `Delete` per resource, in order; an
error other than `NotFound` is appended to `errs`. -/
def deleteLoop (c : Client) : List Object → List Call → List Err → List Call × List Err
  | [], h, errs => (h, errs)
  | resource :: rest, h, errs =>
    let err := c.delete h resource
    let h := h ++ [Call.delete resource]
    if err.isSome && !IsNotFound err then
      deleteLoop c rest h (errs ++ err.toList)
    else
      deleteLoop c rest h errs

/-- The polling loop `for { ... }` on one resource. -/
def waitLoop (c : Client) (resource : Object) : Nat → List Call → List Err →
    Option (List Call × List Err)
  | 0, _, _ => none
  | fuel + 1, h, errs =>
    let err := c.get h resource.gvk resource.Namespace resource.Name
    let h := h ++ [Call.get resource.gvk resource.Namespace resource.Name]
    if IsNotFound err then some (h, errs)
    else if err.isSome then some (h, errs ++ err.toList)
    else waitLoop c resource fuel h errs

/-- The body of the second loop of `Uninstall` for one resource: a first
`Get`, then the polling loop when the resource is still there. -/
def waitOne (c : Client) (fuel : Nat) (resource : Object) (h : List Call)
    (errs : List Err) : Option (List Call × List Err) :=
  let err := c.get h resource.gvk resource.Namespace resource.Name
  let h := h ++ [Call.get resource.gvk resource.Namespace resource.Name]
  if IsNotFound err then some (h, errs)
  else if err.isSome then some (h, errs ++ err.toList)
  else waitLoop c resource fuel h errs

/-- The second loop of `Uninstall`; each polling loop gets `fuel` rounds. -/
def waitPhase (c : Client) (fuel : Nat) : List Object → List Call → List Err →
    Option (List Call × List Err)
  | [], h, errs => some (h, errs)
  | resource :: rest, h, errs =>
    match waitOne c fuel resource h errs with
    | none => none
    | some (h, errs) => waitPhase c fuel rest h errs

/-- The statements of `Uninstall` from the delete loop to the end, on the plan
`toDelete` and after the calls `h`: the delete loop, the early return on
`merr.NewErrors(errs...)`, the wait loop and the final `return nil`. -/
def execute (c : Client) (fuel : Nat) (toDelete : List Object) (h : List Call) :
    Option (List Call × Option Error) :=
  let (h, errs) := deleteLoop c toDelete h []
  match NewErrors errs with
  | some err => some (h, some err)
  | none =>
    match waitPhase c fuel toDelete h errs with
    | none => none
    | some (h, _) => some (h, none)

/-- The function `Uninstall`.  The result is the history of the client calls made and the
returned error (`none` for `nil`); the outer `none` is fuel exhaustion in a
polling loop. -/
def Uninstall (env : Env) (opts : Option Options) (fuel : Nat) :
    Option (List Call × Option Error) :=
  let opts := opts.getD { All := false, Force := false }
  match env.Default with
  | .error _ => some ([], none)
  | .ok c =>
    match baseResources env c [] with
    | (h, .error err) => some (h, some (.of err))
    | (h, .ok toDelete) =>
      match userResources env c h with
      | (h, .error _) => some (h, none)
      | (h, .ok toKeep) =>
        let (toDelete, toKeep) := plan toDelete toKeep opts.All
        match (if opts.Force then .ok true else shouldContinue env toDelete toKeep) with
        | .error err => some (h, some (.of err))
        | .ok false => some (h, none)
        | .ok true => execute c fuel toDelete h

/-! ## Specification vocabulary -/

/-- The sort key behind `sortToDelete.less`: the Namespace flag, then the
kind, then the identity key, compared lexicographically. -/
def rankOf (x : Object) : Bool ×ₗ String ×ₗ String :=
  toLex (decide (x.gvk.Kind = "Namespace"), toLex (x.gvk.Kind, key x))

/-- The namespace-last rule, for `a` placed before `b`: a Namespace is
followed only by Namespaces, two resources of other kinds are in the order of
their kind names and, for one kind, of their identity keys; two resources of
one kind are in the order of their identity keys. -/
def namespaceLast (a b : Object) : Prop :=
  (a.gvk.Kind = "Namespace" → b.gvk.Kind = "Namespace") ∧
  (a.gvk.Kind ≠ "Namespace" → b.gvk.Kind ≠ "Namespace" →
    a.gvk.Kind < b.gvk.Kind ∨ (a.gvk.Kind = b.gvk.Kind ∧ key a ≤ key b)) ∧
  (a.gvk.Kind = b.gvk.Kind → key a ≤ key b)

/-- The reply of the client to the `Delete` of the resource at index `i` of
the plan, in a run that has made the calls `h` and then deletes the plan in
order (`none` is success, and also the value at an index outside the plan). -/
def deleteReply (c : Client) (h : List Call) (toDelete : List Object) (i : Nat) :
    Option Err :=
  match toDelete[i]? with
  | none => none
  | some resource => c.delete (h ++ (toDelete.take i).map Call.delete) resource

/-- The error of a reply when it is an error other than `NotFound`. -/
def nonNotFound : Option Err → Option Err
  | none => none
  | some e => if e.notFound then none else some e

/-- The errors other than `NotFound` among the replies to the `Delete` calls
of a plan, in plan order. -/
def deleteErrors (c : Client) (h : List Call) (toDelete : List Object) : List Err :=
  (List.range toDelete.length).filterMap fun i => nonNotFound (deleteReply c h toDelete i)

/-- The calls of a classification in which every `List` succeeds. -/
def classifyCalls : List Call :=
  [Call.list .Namespace true, Call.list .CustomResourceDefinition false,
   Call.list .Secret true, Call.list .PersistentVolume true]

/-- The `Get` call the wait loop makes for a resource. -/
def getCall (resource : Object) : Call :=
  Call.get resource.gvk resource.Namespace resource.Name

/-- The identity of a managed resource: kind, namespace, name. -/
def identity (o : Object) : String × String × String :=
  (o.gvk.Kind, o.Namespace, o.Name)

/-- The order of the pair (namespace, name): the namespace first, the name as
tie-break. -/
def namespaceNameLE (a b : Object) : Prop :=
  a.Namespace < b.Namespace ∨ (a.Namespace = b.Namespace ∧ a.Name ≤ b.Name)

/-- The scheme resolves the objects of the four listed types to their kinds. -/
def SchemeResolves (c : Client) : Prop :=
  ∀ o : Object,
    (o.goType = .Namespace → (setGVK c o).gvk.Kind = "Namespace") ∧
    (o.goType = .Secret → (setGVK c o).gvk.Kind = "Secret") ∧
    (o.goType = .PersistentVolume → (setGVK c o).gvk.Kind = "PersistentVolume") ∧
    (o.goType = .CustomResourceDefinition →
      (setGVK c o).gvk.Kind = "CustomResourceDefinition")

/-! ## Concrete inputs -/

/-- A scheme that knows the four listed types and no other. -/
def typedScheme (o : Object) : Option GroupVersionKind :=
  match o.goType with
  | .Namespace => some ⟨"", "v1", "Namespace"⟩
  | .Secret => some ⟨"", "v1", "Secret"⟩
  | .PersistentVolume => some ⟨"", "v1", "PersistentVolume"⟩
  | .CustomResourceDefinition =>
    some ⟨"apiextensions.k8s.io", "v1", "CustomResourceDefinition"⟩
  | .Other _ => none

/-- A client over a cluster whose lists do not change during the run. -/
def clusterClient (nses crds secrets pvs : List Item)
    (delete : List Call → Object → Option Err)
    (get : List Call → GroupVersionKind → String → String → Option Err) : Client :=
  { list := fun _ t _ =>
      match t with
      | .Namespace => .ok nses
      | .CustomResourceDefinition => .ok crds
      | .Secret => .ok secrets
      | .PersistentVolume => .ok pvs
      | .Other _ => .ok []
    delete := delete
    get := get
    gvkForObject := typedScheme }

/-- An environment with the client `c`, the manifest `manifest`, the default
user namespace "acorn", and a terminal that renders and answers yes. -/
def quietEnv (c : Client) (manifest : List Object) : Env :=
  { Default := .ok c
    AllResources := .ok manifest
    DefaultUserNamespace := "acorn"
    Render := fun _ => none
    promptBool := fun _ _ => .ok true
    Red := id
    Green := id
    Gray := id
    Bold := id }

def boom : Err := { msg := "internal error", notFound := false }

def gone : Err := { msg := "not found", notFound := true }

def crdItem : Item :=
  { gvk := ⟨"", "", ""⟩, Namespace := "", Name := "x.internal.acorn.io" }

/-- The resolved object of `crdItem`. -/
def crdObject : Object :=
  { goType := .CustomResourceDefinition
    gvk := ⟨"apiextensions.k8s.io", "v1", "CustomResourceDefinition"⟩
    Namespace := "", Name := "x.internal.acorn.io" }

/-- The resolved default user namespace object of `quietEnv`. -/
def acornNamespace : Object :=
  { goType := .Namespace, gvk := ⟨"", "v1", "Namespace"⟩, Namespace := "", Name := "acorn" }

/-- A resolved secret. -/
def secretObject (ns name : String) : Object :=
  { goType := .Secret, gvk := ⟨"", "v1", "Secret"⟩, Namespace := ns, Name := name }

def secondFailure : Err := { msg := "second failure", notFound := false }

/-- The resolved CRD object named `name`. -/
def crdNamed (name : String) : Object :=
  { goType := .CustomResourceDefinition
    gvk := ⟨"apiextensions.k8s.io", "v1", "CustomResourceDefinition"⟩
    Namespace := "", Name := name }

/-- Three internal CRDs, listed out of order.  The `Delete` of the first in
plan order reports `NotFound`, the `Delete` of the second fails with `boom`,
the `Delete` of the third fails with `secondFailure`. -/
def middleFailureClient : Client :=
  clusterClient []
    [{ gvk := ⟨"", "", ""⟩, Namespace := "", Name := "c.internal.acorn.io" },
     { gvk := ⟨"", "", ""⟩, Namespace := "", Name := "a.internal.acorn.io" },
     { gvk := ⟨"", "", ""⟩, Namespace := "", Name := "b.internal.acorn.io" }] [] []
    (fun _ obj =>
      if obj.Name = "a.internal.acorn.io" then some gone
      else if obj.Name = "b.internal.acorn.io" then some boom
      else some secondFailure)
    (fun _ _ _ _ => some gone)

/-- The base resources of `middleFailureClient`, in the order of the list. -/
def middleFailureBase : List Object :=
  [crdNamed "c.internal.acorn.io", crdNamed "a.internal.acorn.io",
   crdNamed "b.internal.acorn.io"]

/-- Every `Delete` succeeds and every `Get` fails with an error other than
`NotFound`. -/
def failingGetClient : Client :=
  clusterClient [] [crdItem] [] [] (fun _ _ => none) (fun _ _ _ _ => some boom)

/-- The list of the managed secrets fails; the other lists are empty. -/
def failingSecretListClient : Client :=
  { list := fun _ t _ =>
      match t with
      | .Secret => .error boom
      | _ => .ok []
    delete := fun _ _ => none
    get := fun _ _ _ _ => some gone
    gvkForObject := typedScheme }

/-- The namespace "acorn" carries the managed label. -/
def labelledDefaultNamespaceClient : Client :=
  clusterClient [{ gvk := ⟨"", "", ""⟩, Namespace := "", Name := "acorn" }] [] [] []
    (fun _ _ => none) (fun _ _ _ _ => some gone)

/-- Two managed secrets named "x", in the namespaces "a" and "a-b". -/
def twoSecretsClient : Client :=
  clusterClient [] []
    [{ gvk := ⟨"", "", ""⟩, Namespace := "a", Name := "x" },
     { gvk := ⟨"", "", ""⟩, Namespace := "a-b", Name := "x" }] []
    (fun _ _ => none) (fun _ _ _ _ => some gone)

/-- The resource is found by the first two `Get` calls and absent afterwards. -/
def slowDeleteClient : Client :=
  clusterClient [] [crdItem] [] [] (fun _ _ => none)
    (fun h _ _ _ => if h.length < 2 then none else some gone)

/-- A manifest: the system namespace, the default user namespace and a
deployment. -/
def sampleManifest : List Object :=
  [{ goType := .Namespace, gvk := ⟨"", "v1", "Namespace"⟩, Namespace := "",
     Name := "acorn-system" },
   acornNamespace,
   { goType := .Other "Deployment", gvk := ⟨"apps", "v1", "Deployment"⟩,
     Namespace := "acorn-system", Name := "acorn-api" }]

/-- The managed namespaces of `sampleClient`. -/
def sampleNamespaces : List Item :=
  [{ gvk := ⟨"", "", ""⟩, Namespace := "", Name := "app-1" }]

/-- A cluster with one managed namespace, two CRDs, one managed secret and one
managed persistent volume. -/
def sampleClient : Client :=
  clusterClient sampleNamespaces
    [crdItem, { gvk := ⟨"", "", ""⟩, Namespace := "", Name := "certs.example.com" }]
    [{ gvk := ⟨"", "", ""⟩, Namespace := "app-1", Name := "token" }]
    [{ gvk := ⟨"", "", ""⟩, Namespace := "", Name := "vol" }]
    (fun _ _ => none) (fun _ _ _ _ => some gone)

/-- The base resources of `sampleClient` with `sampleManifest`. -/
def sampleBase : List Object :=
  [{ goType := .Namespace, gvk := ⟨"", "v1", "Namespace"⟩, Namespace := "",
     Name := "acorn-system" },
   { goType := .Other "Deployment", gvk := ⟨"apps", "v1", "Deployment"⟩,
     Namespace := "acorn-system", Name := "acorn-api" },
   { goType := .Namespace, gvk := ⟨"", "v1", "Namespace"⟩, Namespace := "",
     Name := "app-1" },
   crdObject]

/-- The user resources of `sampleClient`. -/
def sampleUser : List Object :=
  [acornNamespace, secretObject "app-1" "token",
   { goType := .PersistentVolume, gvk := ⟨"", "v1", "PersistentVolume"⟩, Namespace := "",
     Name := "vol" }]

/-! ## Strings and sorting -/

theorem stringLess_iff (a b : String) : stringLess a b = true ↔ a < b := by
  simp [stringLess, String.lt_iff_toList_lt]

theorem stringLess_eq_false_iff (a b : String) : stringLess a b = false ↔ b ≤ a := by
  rw [← not_lt, ← stringLess_iff]; simp

theorem sortSlice_perm {α : Type} (less : α → α → Bool) (xs : List α) :
    (sortSlice less xs).Perm xs :=
  List.perm_insertionSort _ xs

/-- When `less` is the strict order of a key into a linear order, the result
of `sortSlice` is non-decreasing in that key. -/
theorem sortSlice_sorted {α β : Type} [LinearOrder β] (less : α → α → Bool) (f : α → β)
    (hless : ∀ a b, less a b = true ↔ f a < f b) (xs : List α) :
    (sortSlice less xs).Pairwise (fun a b => f a ≤ f b) := by
  have hr : ∀ a b, (less b a = false) ↔ f a ≤ f b := by
    intro a b
    rw [← not_lt, ← hless]; simp
  unfold sortSlice
  have hfun : (fun a b => less b a = false) = (fun a b => f a ≤ f b) := by
    funext a b; exact propext (hr a b)
  simp only [hfun]
  haveI : IsTotal α (fun a b => f a ≤ f b) := ⟨fun a b => le_total (f a) (f b)⟩
  haveI : IsTrans α (fun a b => f a ≤ f b) := ⟨fun a b c => le_trans⟩
  exact List.sorted_insertionSort (fun a b => f a ≤ f b) xs

theorem less_iff_rank (a b : Object) :
    sortToDelete.less a b = true ↔ rankOf a < rankOf b := by
  unfold sortToDelete.less rankOf
  rw [Prod.Lex.lt_iff]
  simp only [Prod.Lex.lt_iff]
  by_cases hab : a.gvk.Kind = b.gvk.Kind
  · simp [hab, stringLess_iff]
  · by_cases ha : a.gvk.Kind = "Namespace"
    · have hb : b.gvk.Kind ≠ "Namespace" := fun h => hab (ha.trans h.symm)
      simp [hab, ha, hb]
      constructor
      · intro h
        exact absurd h.1.symm hb
      · intro h
        exact absurd h (by decide)
    · by_cases hb : b.gvk.Kind = "Namespace"
      · simp [hab, ha, hb]
      · simp [hab, ha, hb, stringLess_iff]

theorem namespaceLast_of_rank_le (a b : Object) (h : rankOf a ≤ rankOf b) :
    namespaceLast a b := by
  unfold rankOf at h
  rw [Prod.Lex.le_iff] at h
  unfold namespaceLast
  rcases h with h | ⟨h1, h2⟩
  · have h0 := Bool.lt_iff.1 h
    have ha : ¬ a.gvk.Kind = "Namespace" := of_decide_eq_false h0.1
    have hb : b.gvk.Kind = "Namespace" := of_decide_eq_true h0.2
    refine ⟨fun _ => hb, fun _ h2 => absurd hb h2, fun h1 => ?_⟩
    exact absurd (h1.trans hb) ha
  · have hiff : a.gvk.Kind = "Namespace" ↔ b.gvk.Kind = "Namespace" :=
      decide_eq_decide.1 h1
    have h3 : a.gvk.Kind < b.gvk.Kind ∨ (a.gvk.Kind = b.gvk.Kind ∧ key a ≤ key b) :=
      (Prod.Lex.le_iff _ _).1 h2
    refine ⟨hiff.1, fun _ _ => h3, fun h1 => ?_⟩
    rcases h3 with h3 | h3
    · exact absurd h1 (ne_of_lt h3)
    · exact h3.2

theorem sortToDelete_perm (resources : List Object) :
    (sortToDelete resources).Perm resources :=
  sortSlice_perm _ resources

theorem sortToDelete_pairwise (resources : List Object) :
    (sortToDelete resources).Pairwise namespaceLast :=
  (sortSlice_sorted sortToDelete.less rankOf less_iff_rank resources).imp
    (fun {a b} h => namespaceLast_of_rank_le a b h)

/-! ## The delete loop -/

theorem deleteLoop_fst (c : Client) (rs : List Object) (h : List Call) (errs : List Err) :
    (deleteLoop c rs h errs).1 = h ++ rs.map Call.delete := by
  induction rs generalizing h errs with
  | nil => simp [deleteLoop]
  | cons r rest ih =>
    simp only [deleteLoop]
    split <;> simp [ih]

theorem deleteReply_zero (c : Client) (h : List Call) (r : Object) (rest : List Object) :
    deleteReply c h (r :: rest) 0 = c.delete h r := by
  simp [deleteReply]

theorem deleteReply_succ (c : Client) (h : List Call) (r : Object) (rest : List Object)
    (i : Nat) :
    deleteReply c h (r :: rest) (i + 1) = deleteReply c (h ++ [Call.delete r]) rest i := by
  simp [deleteReply]

theorem deleteErrors_cons (c : Client) (h : List Call) (r : Object) (rest : List Object) :
    deleteErrors c h (r :: rest) =
      (nonNotFound (c.delete h r)).toList ++ deleteErrors c (h ++ [Call.delete r]) rest := by
  unfold deleteErrors
  rw [List.length_cons, List.range_succ_eq_map, List.filterMap_cons, deleteReply_zero,
    List.filterMap_map]
  have hfun : ((fun i => nonNotFound (deleteReply c h (r :: rest) i)) ∘ Nat.succ) =
      fun i => nonNotFound (deleteReply c (h ++ [Call.delete r]) rest i) := by
    funext i
    simp [Function.comp, deleteReply_succ]
  rw [hfun]
  cases nonNotFound (c.delete h r) <;> simp

theorem deleteLoop_snd (c : Client) (rs : List Object) (h : List Call) (errs : List Err) :
    (deleteLoop c rs h errs).2 = errs ++ deleteErrors c h rs := by
  induction rs generalizing h errs with
  | nil => simp [deleteLoop, deleteErrors]
  | cons r rest ih =>
    rw [deleteErrors_cons]
    simp only [deleteLoop]
    cases hd : c.delete h r with
    | none => simp [IsNotFound, nonNotFound, ih]
    | some e =>
      cases hnf : e.notFound <;> simp [IsNotFound, nonNotFound, ih, hnf]


theorem nonNotFound_eq_none_iff (r : Option Err) :
    nonNotFound r = none ↔ r = none ∨ IsNotFound r = true := by
  cases r with
  | none => simp [nonNotFound]
  | some e => cases hnf : e.notFound <;> simp [nonNotFound, IsNotFound, hnf]

theorem deleteErrors_eq_nil_iff (c : Client) (h : List Call) (rs : List Object) :
    deleteErrors c h rs = [] ↔
      ∀ i, i < rs.length → deleteReply c h rs i = none ∨ IsNotFound (deleteReply c h rs i) = true := by
  unfold deleteErrors
  rw [List.filterMap_eq_nil_iff]
  simp only [List.mem_range, nonNotFound_eq_none_iff]

theorem NewErrors_eq_none_iff (errs : List Err) : NewErrors errs = none ↔ errs = [] := by
  match errs with
  | [] => simp [NewErrors]
  | [e] => simp [NewErrors]
  | e :: f :: rest => simp [NewErrors]

theorem NewErrors_wrapped (errs : List Err) (err : Error) (h : NewErrors errs = some err) :
    err.wrapped = errs := by
  match errs, h with
  | [e], h => simp [NewErrors] at h; subst h; rfl
  | e :: f :: rest, h => simp [NewErrors] at h; subst h; rfl

theorem execute_of_errors (c : Client) (fuel : Nat) (rs : List Object) (h : List Call)
    (hne : deleteErrors c h rs ≠ []) :
    ∃ err, execute c fuel rs h = some (h ++ rs.map Call.delete, some err) ∧
      err.wrapped = deleteErrors c h rs := by
  have h1 := deleteLoop_fst c rs h []
  have h2 := deleteLoop_snd c rs h []
  rw [List.nil_append] at h2
  cases hN : NewErrors (deleteErrors c h rs) with
  | none => exact absurd ((NewErrors_eq_none_iff _).1 hN) hne
  | some err =>
    refine ⟨err, ?_, NewErrors_wrapped _ _ hN⟩
    unfold execute
    rcases hd : deleteLoop c rs h [] with ⟨h', errs⟩
    rw [hd] at h1 h2
    simp only at h1 h2
    subst h1 h2
    simp [hN]

theorem baseResources_calls (env : Env) (c : Client) (h : List Call) (base : List Object)
    (hb : (baseResources env c h).2 = .ok base) :
    (baseResources env c h).1 =
      h ++ [Call.list .Namespace true, Call.list .CustomResourceDefinition false] := by
  cases hA : env.AllResources <;>
  cases hN : c.list h .Namespace true <;>
  cases hC : c.list (h ++ [Call.list .Namespace true]) .CustomResourceDefinition false <;>
  simp [baseResources, hA, hN, hC] at hb ⊢

theorem userResources_calls (env : Env) (c : Client) (h : List Call) (user : List Object)
    (hu : (userResources env c h).2 = .ok user) :
    (userResources env c h).1 =
      h ++ [Call.list .Secret true, Call.list .PersistentVolume true] := by
  cases hS : c.list h .Secret true <;>
  cases hP : c.list (h ++ [Call.list .Secret true]) .PersistentVolume true <;>
  simp [userResources, hS, hP] at hu ⊢

theorem Uninstall_of_classified (env : Env) (c : Client) (opts : Options) (fuel : Nat)
    (base user : List Object) (hc : env.Default = .ok c)
    (hb : (baseResources env c []).2 = .ok base)
    (hu : (userResources env c (baseResources env c []).1).2 = .ok user) :
    Uninstall env (some opts) fuel =
      match (if opts.Force then Except.ok true
          else shouldContinue env (plan base user opts.All).1 (plan base user opts.All).2) with
      | .error err => some (classifyCalls, some (.of err))
      | .ok false => some (classifyCalls, none)
      | .ok true => execute c fuel (plan base user opts.All).1 classifyCalls := by
  have h1 := baseResources_calls env c [] base hb
  have h2 := userResources_calls env c _ user hu
  rw [h1] at h2 hu
  simp only [List.nil_append] at h1 h2 hu
  unfold Uninstall
  simp only [hc, Option.getD_some]
  rcases hbr : baseResources env c [] with ⟨hh, rb⟩
  rw [hbr] at hb h1
  simp only at hb h1
  subst hb h1
  simp only
  rcases hur : userResources env c [Call.list .Namespace true, Call.list .CustomResourceDefinition false] with ⟨hh, ru⟩
  rw [hur] at hu h2
  simp only at hu h2
  subst hu h2
  rfl

/-! ## The wait loop -/

theorem waitLoop_gone (c : Client) (r : Object) (k : Nat) :
    ∀ (h : List Call) (errs : List Err) (e : Err) (fuel : Nat),
      (∀ j, j < k → c.get (h ++ List.replicate j (getCall r)) r.gvk r.Namespace r.Name = none) →
      c.get (h ++ List.replicate k (getCall r)) r.gvk r.Namespace r.Name = some e →
      e.notFound = true → k < fuel →
      waitLoop c r fuel h errs = some (h ++ List.replicate (k + 1) (getCall r), errs) := by
  induction k with
  | zero =>
    intro h errs e fuel _ hgone hnf hfuel
    obtain ⟨f, rfl⟩ : ∃ f, fuel = f + 1 := ⟨fuel - 1, by omega⟩
    simp only [List.replicate_zero, List.append_nil] at hgone
    simp [waitLoop, hgone, IsNotFound, hnf, getCall]
  | succ k ih =>
    intro h errs e fuel hfound hgone hnf hfuel
    obtain ⟨f, rfl⟩ : ∃ f, fuel = f + 1 := ⟨fuel - 1, by omega⟩
    have h0 := hfound 0 (Nat.succ_pos k)
    simp only [List.replicate_zero, List.append_nil] at h0
    have hshift : ∀ j, h ++ List.replicate (j + 1) (getCall r) =
        (h ++ [getCall r]) ++ List.replicate j (getCall r) := by
      intro j
      simp [List.replicate_succ]
    have hrec := ih (h ++ [getCall r]) errs e f
      (fun j hj => by rw [← hshift]; exact hfound (j + 1) (Nat.succ_lt_succ hj))
      (by rw [← hshift]; exact hgone) hnf (by omega)
    rw [hshift (k + 1)]
    simp only [waitLoop, h0, IsNotFound, Option.isSome_none]
    simpa [getCall] using hrec

theorem waitLoop_calls (c : Client) (r : Object) (fuel : Nat) :
    ∀ (h : List Call) (errs : List Err) (h2 : List Call) (errs2 : List Err),
      waitLoop c r fuel h errs = some (h2, errs2) →
      ∃ n, h2 = h ++ List.replicate n (getCall r) := by
  induction fuel with
  | zero => intro h errs h2 errs2 hw; simp [waitLoop] at hw
  | succ f ih =>
    intro h errs h2 errs2 hw
    simp only [waitLoop] at hw
    split at hw
    · simp at hw; exact ⟨1, by simp [hw.1.symm, getCall]⟩
    · split at hw
      · simp at hw; exact ⟨1, by simp [hw.1.symm, getCall]⟩
      · obtain ⟨n, hn⟩ := ih _ _ _ _ hw
        exact ⟨n + 1, by simp [hn, List.replicate_succ, getCall]⟩

theorem waitOne_calls (c : Client) (fuel : Nat) (r : Object) (h : List Call)
    (errs : List Err) (h2 : List Call) (errs2 : List Err)
    (hw : waitOne c fuel r h errs = some (h2, errs2)) :
    ∃ n, h2 = h ++ List.replicate n (getCall r) := by
  simp only [waitOne] at hw
  split at hw
  · simp at hw; exact ⟨1, by simp [hw.1.symm, getCall]⟩
  · split at hw
    · simp at hw; exact ⟨1, by simp [hw.1.symm, getCall]⟩
    · obtain ⟨n, hn⟩ := waitLoop_calls c r fuel _ _ _ _ hw
      exact ⟨n + 1, by simp [hn, List.replicate_succ, getCall]⟩

theorem waitPhase_delete (c : Client) (fuel : Nat) (rs : List Object) :
    ∀ (h : List Call) (errs : List Err) (h2 : List Call) (errs2 : List Err),
      waitPhase c fuel rs h errs = some (h2, errs2) →
      ∀ x, Call.delete x ∈ h2 → Call.delete x ∈ h := by
  induction rs with
  | nil =>
    intro h errs h2 errs2 hw x hx
    simp [waitPhase] at hw
    rw [hw.1]; exact hx
  | cons r rest ih =>
    intro h errs h2 errs2 hw x hx
    simp only [waitPhase] at hw
    cases hone : waitOne c fuel r h errs with
    | none => simp [hone] at hw
    | some p =>
      obtain ⟨h1, errs1⟩ := p
      simp only [hone] at hw
      have hmid := ih h1 errs1 h2 errs2 hw x hx
      obtain ⟨n, hn⟩ := waitOne_calls c fuel r h errs h1 errs1 hone
      rw [hn, List.mem_append] at hmid
      rcases hmid with hmid | hmid
      · exact hmid
      · have := List.eq_of_mem_replicate hmid
        simp [getCall] at this

theorem execute_delete (c : Client) (fuel : Nat) (rs : List Object) (h : List Call)
    (trace : List Call) (err : Option Error)
    (hx : execute c fuel rs h = some (trace, err)) :
    ∀ x, Call.delete x ∈ trace → Call.delete x ∈ h ∨ x ∈ rs := by
  intro x hmem
  have h1 := deleteLoop_fst c rs h []
  unfold execute at hx
  rcases hd : deleteLoop c rs h [] with ⟨h2, errs⟩
  rw [hd] at h1 hx
  simp only at h1 hx
  have key : Call.delete x ∈ h2 := by
    cases hN : NewErrors errs with
    | some e =>
      simp only [hN] at hx
      simp at hx
      rw [hx.1]; exact hmem
    | none =>
      simp only [hN] at hx
      cases hw : waitPhase c fuel rs h2 errs with
      | none => simp [hw] at hx
      | some p =>
        obtain ⟨h3, errs3⟩ := p
        simp only [hw] at hx
        simp at hx
        exact waitPhase_delete c fuel rs h2 errs h3 errs3 hw x (by rw [hx.1]; exact hmem)
  rw [h1, List.mem_append] at key
  rcases key with key | key
  · exact Or.inl key
  · right
    simpa using key

/-! ## The classifier -/

theorem setGVK_goType (c : Client) (o : Object) : (setGVK c o).goType = o.goType := by
  unfold setGVK; split <;> rfl

theorem setGVK_Namespace (c : Client) (o : Object) : (setGVK c o).Namespace = o.Namespace := by
  unfold setGVK; split <;> rfl

theorem setGVK_Name (c : Client) (o : Object) : (setGVK c o).Name = o.Name := by
  unfold setGVK; split <;> rfl

theorem key_setGVK (c : Client) (o : Object) : key (setGVK c o) = key o := by
  simp [key, setGVK_Namespace, setGVK_Name]

theorem baseResources_ok (env : Env) (c : Client) (h : List Call) (base : List Object)
    (hb : (baseResources env c h).2 = .ok base) :
    ∃ (all : List Object) (nses crds : List Item), env.AllResources = .ok all ∧ c.list h .Namespace true = .ok nses ∧
      base = setGVKs c
        (all.filter (fun a =>
            !(a.gvk.Kind == "Namespace" && a.Name == env.DefaultUserNamespace)) ++
          nses.map (Item.toObject .Namespace) ++
          (crds.filter fun crd => HasSuffix crd.Name ".internal.acorn.io").map
            (Item.toObject .CustomResourceDefinition)) := by
  cases hA : env.AllResources with
  | error e => simp [baseResources, hA] at hb
  | ok all =>
    cases hN : c.list h .Namespace true with
    | error e => simp [baseResources, hA, hN] at hb
    | ok nses =>
      cases hC : c.list (h ++ [Call.list .Namespace true]) .CustomResourceDefinition false with
      | error e => simp [baseResources, hA, hN, hC] at hb
      | ok crds =>
        refine ⟨all, nses, crds, rfl, rfl, ?_⟩
        simp only [baseResources, hA, hN, hC] at hb
        exact (Except.ok.inj hb).symm

theorem userResources_ok (env : Env) (c : Client) (h : List Call) (user : List Object)
    (hu : (userResources env c h).2 = .ok user) :
    ∃ (secrets pvs : List Item), c.list h .Secret true = .ok secrets ∧
      c.list (h ++ [Call.list .Secret true]) .PersistentVolume true = .ok pvs ∧
      user = setGVKs c
        ([{ goType := .Namespace, gvk := ⟨"", "", ""⟩, Namespace := "",
            Name := env.DefaultUserNamespace }] ++
          (sortSlice (fun i j => stringLess (key (i.toObject .Secret))
            (key (j.toObject .Secret))) secrets).map (Item.toObject .Secret) ++
          (sortSlice (fun i j => stringLess (key (i.toObject .PersistentVolume))
            (key (j.toObject .PersistentVolume))) pvs).map
              (Item.toObject .PersistentVolume)) := by
  cases hS : c.list h .Secret true with
  | error e => simp [userResources, hS] at hu
  | ok secrets =>
    cases hP : c.list (h ++ [Call.list .Secret true]) .PersistentVolume true with
    | error e => simp [userResources, hS, hP] at hu
    | ok pvs =>
      refine ⟨secrets, pvs, rfl, rfl, ?_⟩
      simp only [userResources, hS, hP] at hu
      exact (Except.ok.inj hu).symm


/-! ## Replies and schemes -/

theorem mem_range_of_deleteReply (c : Client) (h : List Call) (rs : List Object) (i : Nat)
    (e : Err) (hr : deleteReply c h rs i = some e) : i < rs.length := by
  by_contra hlt
  have : rs[i]? = none := List.getElem?_eq_none (by omega)
  simp [deleteReply, this] at hr

theorem typedScheme_resolves (c : Client) (hc : c.gvkForObject = typedScheme) :
    SchemeResolves c := by
  intro o
  refine ⟨fun h => ?_, fun h => ?_, fun h => ?_, fun h => ?_⟩ <;>
    simp [setGVK, hc, typedScheme, h]


/-! ## What `Uninstall` returns on each path -/

/-- A failure of `baseResources` is returned as it is. -/
theorem Uninstall_baseResources_error (env : Env) (c : Client) (opts : Options) (fuel : Nat)
    (err : Err) (hc : env.Default = .ok c)
    (hb : (baseResources env c []).2 = .error err) :
    Uninstall env (some opts) fuel = some ((baseResources env c []).1, some (.of err)) := by
  unfold Uninstall
  simp only [hc, Option.getD_some]
  rcases hbr : baseResources env c [] with ⟨hh, rb⟩
  rw [hbr] at hb
  simp only at hb
  subst hb
  rfl

/-- A failure of `userResources` ends the run with `nil`. -/
theorem Uninstall_userResources_error (env : Env) (c : Client) (opts : Options) (fuel : Nat)
    (base : List Object) (err : Err) (hc : env.Default = .ok c)
    (hb : (baseResources env c []).2 = .ok base)
    (hu : (userResources env c (baseResources env c []).1).2 = .error err) :
    Uninstall env (some opts) fuel =
      some ((userResources env c (baseResources env c []).1).1, none) := by
  unfold Uninstall
  simp only [hc, Option.getD_some]
  rcases hbr : baseResources env c [] with ⟨hh, rb⟩
  rw [hbr] at hb hu
  simp only at hb hu
  subst hb
  simp only
  rcases hur : userResources env c hh with ⟨hh2, ru⟩
  rw [hur] at hu
  simp only at hu
  subst hu
  rfl

/-- When no `Delete` fails, `execute` returns `nil` whatever the wait loop
accumulates. -/
theorem execute_of_no_errors (c : Client) (fuel : Nat) (rs : List Object) (h : List Call)
    (hnil : deleteErrors c h rs = []) :
    execute c fuel rs h =
      (waitPhase c fuel rs (h ++ rs.map Call.delete) []).map fun p => (p.1, none) := by
  have h1 := deleteLoop_fst c rs h []
  have h2 := deleteLoop_snd c rs h []
  rw [List.nil_append, hnil] at h2
  unfold execute
  rcases hd : deleteLoop c rs h [] with ⟨h3, errs⟩
  rw [hd] at h1 h2
  simp only at h1 h2
  subst h1 h2
  simp only [NewErrors]
  cases waitPhase c fuel rs (h ++ rs.map Call.delete) [] <;> rfl

/-! ## The claims -/

/-- C1: with `deleteAll` false the plan keeps the user set as it is and its
`toDelete` is a permutation of the base set, with the same members; and in a
run of `Uninstall` on a classification that gave `base` and `user`, every
resource that receives a `Delete` call is a member of `base`. -/
theorem plan_keep_user (base user : List Object) :
    (plan base user false).2 = user ∧
    (plan base user false).1.Perm base ∧
    (∀ r, r ∈ (plan base user false).1 ↔ r ∈ base) ∧
    (∀ (env : Env) (c : Client) (opts : Options) (fuel : Nat) (trace : List Call)
        (err : Option Error),
      opts.All = false → env.Default = .ok c →
      (baseResources env c []).2 = .ok base →
      (userResources env c (baseResources env c []).1).2 = .ok user →
      Uninstall env (some opts) fuel = some (trace, err) →
      ∀ r, Call.delete r ∈ trace → r ∈ base) := by
  have hperm : (plan base user false).1.Perm base := by
    simpa [plan] using sortToDelete_perm base
  refine ⟨by simp [plan], hperm, fun r => hperm.mem_iff, ?_⟩
  intro env c opts fuel trace err hall hc hb hu hrun r hr
  rw [Uninstall_of_classified env c opts fuel base user hc hb hu, hall] at hrun
  have hlist : Call.delete r ∉ classifyCalls := by simp [classifyCalls]
  split at hrun
  · simp at hrun
    rw [← hrun.1] at hr
    exact absurd hr hlist
  · simp at hrun
    rw [← hrun.1] at hr
    exact absurd hr hlist
  · rcases execute_delete c fuel _ _ trace err hrun r hr with h1 | h1
    · exact absurd h1 hlist
    · exact hperm.mem_iff.1 h1

/-- C2: with `deleteAll` true the plan keeps nothing, and its `toDelete` is a
permutation of `base ++ user` in which every resource placed before another
respects the namespace-last rule. -/
theorem plan_delete_all (base user : List Object) :
    (plan base user true).2 = [] ∧
    (plan base user true).1.Perm (base ++ user) ∧
    (plan base user true).1.Pairwise namespaceLast := by
  refine ⟨by simp [plan], ?_, ?_⟩
  · simpa [plan] using sortToDelete_perm (base ++ user)
  · simpa [plan] using sortToDelete_pairwise (base ++ user)

/-- C3: after `sortToDelete` the index of every resource of kind Namespace
exceeds the index of every resource of another kind, and of two resources of
other kinds the earlier one has the smaller kind name or, for the same kind,
an identity key that is not greater. -/
theorem sortToDelete_namespace_last (resources : List Object) :
    (∀ (i j : Nat) (hi : i < (sortToDelete resources).length)
        (hj : j < (sortToDelete resources).length),
      ((sortToDelete resources)[i]).gvk.Kind = "Namespace" →
      ((sortToDelete resources)[j]).gvk.Kind ≠ "Namespace" → j < i) ∧
    (∀ (i j : Nat) (hi : i < (sortToDelete resources).length)
        (hj : j < (sortToDelete resources).length), i < j →
      ((sortToDelete resources)[i]).gvk.Kind ≠ "Namespace" →
      ((sortToDelete resources)[j]).gvk.Kind ≠ "Namespace" →
      ((sortToDelete resources)[i]).gvk.Kind < ((sortToDelete resources)[j]).gvk.Kind ∨
      (((sortToDelete resources)[i]).gvk.Kind = ((sortToDelete resources)[j]).gvk.Kind ∧
        key ((sortToDelete resources)[i]) ≤ key ((sortToDelete resources)[j]))) := by
  have hp := List.pairwise_iff_getElem.1 (sortToDelete_pairwise resources)
  constructor
  · intro i j hi hj hns hother
    by_contra hlt
    have hij : i < j := by
      rcases Nat.lt_or_ge i j with h | h
      · exact h
      · have : i = j := by omega
        subst this
        exact absurd hns hother
    exact hother ((hp i j hi hj hij).1 hns)
  · intro i j hi hj hij h1 h2
    exact (hp i j hi hj hij).2.1 h1 h2

/-- C4: when the classification succeeded and the run was confirmed or forced,
and the `Delete` of the resource at index `i` of the plan fails with an error
other than `NotFound`, `Uninstall` returns, for every fuel, after exactly the
calls of the classification followed by one `Delete` per resource of the plan,
in plan order; it makes no `Get` call; and the returned error is not `nil` and
wraps exactly the errors other than `NotFound` of the `Delete` calls, the one
at index `i` among them. -/
theorem Uninstall_delete_failure (env : Env) (c : Client) (opts : Options)
    (base user : List Object) (i : Nat) (e : Err) (fuel : Nat)
    (hc : env.Default = .ok c)
    (hb : (baseResources env c []).2 = .ok base)
    (hu : (userResources env c (baseResources env c []).1).2 = .ok user)
    (hgo : opts.Force = true ∨
      shouldContinue env (plan base user opts.All).1 (plan base user opts.All).2 = .ok true)
    (hfail : deleteReply c classifyCalls (plan base user opts.All).1 i = some e)
    (hnf : e.notFound = false) :
    ∃ err, Uninstall env (some opts) fuel =
        some (classifyCalls ++ (plan base user opts.All).1.map Call.delete, some err) ∧
      err.wrapped = deleteErrors c classifyCalls (plan base user opts.All).1 ∧
      e ∈ err.wrapped ∧
      ∀ gvk ns name,
        Call.get gvk ns name ∉ classifyCalls ++ (plan base user opts.All).1.map Call.delete := by
  have hi := mem_range_of_deleteReply _ _ _ _ _ hfail
  have hmem : e ∈ deleteErrors c classifyCalls (plan base user opts.All).1 := by
    unfold deleteErrors
    rw [List.mem_filterMap]
    exact ⟨i, List.mem_range.2 hi, by simp [hfail, nonNotFound, hnf]⟩
  obtain ⟨err, hex, hw⟩ := execute_of_errors c fuel (plan base user opts.All).1 classifyCalls
    (List.ne_nil_of_mem hmem)
  refine ⟨err, ?_, hw, hw ▸ hmem, ?_⟩
  · rw [Uninstall_of_classified env c opts fuel base user hc hb hu]
    rcases hgo with hgo | hgo
    · simp [hgo, hex]
    · by_cases hF : opts.Force = true
      · simp [hF, hex]
      · simp [hF, hgo, hex]
  · intro gvk ns name
    simp [classifyCalls]

/-- C4 at a concrete input: a plan of three CRDs in which the first `Delete`
reports `NotFound`, the second (index 1) fails and the third fails too.  All
three resources receive their `Delete`, in plan order, the one after the
failure included; no `Get` is made; the returned error is the aggregate of the
two failures. -/
theorem Uninstall_delete_failure_witness :
    (plan middleFailureBase [acornNamespace] false).1 =
      [crdNamed "a.internal.acorn.io", crdNamed "b.internal.acorn.io",
       crdNamed "c.internal.acorn.io"] ∧
    deleteReply middleFailureClient classifyCalls
        (plan middleFailureBase [acornNamespace] false).1 0 = some gone ∧
    deleteReply middleFailureClient classifyCalls
        (plan middleFailureBase [acornNamespace] false).1 1 = some boom ∧
    deleteReply middleFailureClient classifyCalls
        (plan middleFailureBase [acornNamespace] false).1 2 = some secondFailure ∧
    Uninstall (quietEnv middleFailureClient []) (some ⟨false, true⟩) 0 =
      some (classifyCalls ++
          [Call.delete (crdNamed "a.internal.acorn.io"),
           Call.delete (crdNamed "b.internal.acorn.io"),
           Call.delete (crdNamed "c.internal.acorn.io")],
        some (.Errors [boom, secondFailure])) ∧
    ∃ err, Uninstall (quietEnv middleFailureClient []) (some ⟨false, true⟩) 0 =
        some (classifyCalls ++
          (plan middleFailureBase [acornNamespace] false).1.map Call.delete, some err) ∧
      err.wrapped =
        deleteErrors middleFailureClient classifyCalls
          (plan middleFailureBase [acornNamespace] false).1 ∧
      boom ∈ err.wrapped ∧
      ∀ gvk ns name,
        Call.get gvk ns name ∉
          classifyCalls ++ (plan middleFailureBase [acornNamespace] false).1.map Call.delete :=
  ⟨by decide, by decide, by decide, by decide, by decide,
   Uninstall_delete_failure (quietEnv middleFailureClient []) middleFailureClient
    ⟨false, true⟩ middleFailureBase [acornNamespace] 1 boom 0 rfl rfl rfl (Or.inl rfl)
    (by decide) rfl⟩

/-- C5: the delete loop makes one `Delete` call per resource of the plan, in
plan order, whatever the replies; the errors it accumulates are exactly the
errors other than `NotFound` among the replies, in plan order (a `NotFound`
reply adds nothing); and the accumulated list is empty if and only if every
`Delete` succeeded or reported `NotFound`. -/
theorem deleteLoop_errors (c : Client) (h : List Call) (toDelete : List Object) :
    (deleteLoop c toDelete h []).1 = h ++ toDelete.map Call.delete ∧
    (deleteLoop c toDelete h []).2 = deleteErrors c h toDelete ∧
    ((deleteLoop c toDelete h []).2 = [] ↔
      ∀ i, i < toDelete.length →
        deleteReply c h toDelete i = none ∨ IsNotFound (deleteReply c h toDelete i) = true) := by
  have h2 : (deleteLoop c toDelete h []).2 = deleteErrors c h toDelete := by
    rw [deleteLoop_snd, List.nil_append]
  exact ⟨deleteLoop_fst c toDelete h [], h2, by rw [h2]; exact deleteErrors_eq_nil_iff c h toDelete⟩

/-- C6: a run in which the only `Get` of the wait loop fails with an error
other than `NotFound`: the wait loop accumulates that error, and `Uninstall`
returns `nil`. -/
theorem Uninstall_drops_wait_errors :
    waitPhase failingGetClient 0 [crdObject] (classifyCalls ++ [Call.delete crdObject]) [] =
      some (classifyCalls ++ [Call.delete crdObject, getCall crdObject], [boom]) ∧
    Uninstall (quietEnv failingGetClient []) (some ⟨false, true⟩) 0 =
      some (classifyCalls ++ [Call.delete crdObject, getCall crdObject], none) := by
  constructor <;> decide

/-- C7: a run in which the list of the managed secrets fails: `userResources`
fails with that error, no `Delete` call is made, and `Uninstall` returns
`nil`. -/
theorem Uninstall_swallows_userResources_error :
    (userResources (quietEnv failingSecretListClient []) failingSecretListClient
      [Call.list .Namespace true, Call.list .CustomResourceDefinition false]).2 =
        .error boom ∧
    Uninstall (quietEnv failingSecretListClient []) (some ⟨false, true⟩) 0 =
      some ([Call.list .Namespace true, Call.list .CustomResourceDefinition false,
        Call.list .Secret true], none) :=
  ⟨rfl, by decide⟩

/-- C8 as stated fails: when the default user namespace carries the managed
label, the same namespace object is a base resource and a user resource. -/
theorem default_namespace_in_both :
    (baseResources (quietEnv labelledDefaultNamespaceClient [])
      labelledDefaultNamespaceClient []).2 = .ok [acornNamespace] ∧
    (userResources (quietEnv labelledDefaultNamespaceClient [])
      labelledDefaultNamespaceClient
      (baseResources (quietEnv labelledDefaultNamespaceClient [])
        labelledDefaultNamespaceClient []).1).2 = .ok [acornNamespace] ∧
    acornNamespace.Name = (quietEnv labelledDefaultNamespaceClient []).DefaultUserNamespace :=
  ⟨rfl, rfl, rfl⟩

/-- C8, amended: no identity is both in the base and in the user resources of
one classification when the scheme resolves the four listed types to their
kinds, resolution leaves the kind of every manifest object as declared, the
manifest declares no Secret and no PersistentVolume, and no managed namespace
of the cluster has the name of the default user namespace. -/
theorem base_user_disjoint (env : Env) (c : Client) (all : List Object) (nses : List Item)
    (base user : List Object)
    (hall : env.AllResources = .ok all)
    (hnses : c.list [] .Namespace true = .ok nses)
    (hb : (baseResources env c []).2 = .ok base)
    (hu : (userResources env c (baseResources env c []).1).2 = .ok user)
    (hscheme : SchemeResolves c)
    (hman : ∀ m ∈ all, (setGVK c m).gvk.Kind = m.gvk.Kind ∧
      m.gvk.Kind ≠ "Secret" ∧ m.gvk.Kind ≠ "PersistentVolume")
    (hlab : ∀ n ∈ nses, n.Name ≠ env.DefaultUserNamespace) :
    ∀ b ∈ base, ∀ u ∈ user, identity b ≠ identity u := by
  obtain ⟨all2, nses2, crds, hall2, hnses2, hbase⟩ := baseResources_ok env c [] base hb
  obtain ⟨secrets, pvs, -, -, huser⟩ := userResources_ok env c _ user hu
  rw [hall] at hall2
  rw [hnses] at hnses2
  cases Except.ok.inj hall2
  cases Except.ok.inj hnses2
  -- what a base resource can be
  have hbase_cases : ∀ b ∈ base,
      (b.gvk.Kind ≠ "Secret" ∧ b.gvk.Kind ≠ "PersistentVolume" ∧
        ¬ (b.gvk.Kind = "Namespace" ∧ b.Name = env.DefaultUserNamespace)) := by
    intro b hbm
    rw [hbase] at hbm
    simp only [setGVKs, List.mem_map, List.mem_append, List.mem_filter] at hbm
    obtain ⟨b0, hb0, rfl⟩ := hbm
    rcases hb0 with (⟨hm, hf⟩ | ⟨n, hn, rfl⟩) | ⟨crd, _, rfl⟩
    · obtain ⟨hk, hs, hp⟩ := hman b0 hm
      rw [hk, setGVK_Name]
      refine ⟨hs, hp, ?_⟩
      intro hboth
      simp [hboth.1, hboth.2] at hf
    · have hk := (hscheme (Item.toObject .Namespace n)).1 rfl
      rw [hk, setGVK_Name]
      refine ⟨by decide, by decide, ?_⟩
      intro hboth
      exact hlab n hn hboth.2
    · have hk := (hscheme (Item.toObject .CustomResourceDefinition crd)).2.2.2 rfl
      rw [hk]
      exact ⟨by decide, by decide, fun hboth => absurd hboth.1 (by decide)⟩
  -- what a user resource can be
  have huser_cases : ∀ u ∈ user,
      u.gvk.Kind = "Secret" ∨ u.gvk.Kind = "PersistentVolume" ∨
        (u.gvk.Kind = "Namespace" ∧ u.Name = env.DefaultUserNamespace) := by
    intro u hum
    rw [huser] at hum
    simp only [setGVKs, List.mem_map, List.mem_append, List.mem_singleton] at hum
    obtain ⟨u0, hu0, rfl⟩ := hum
    rcases hu0 with (rfl | ⟨s, _, rfl⟩) | ⟨p, _, rfl⟩
    · right; right
      exact ⟨(hscheme _).1 rfl, by rw [setGVK_Name]⟩
    · left
      exact (hscheme (Item.toObject .Secret s)).2.1 rfl
    · right; left
      exact (hscheme (Item.toObject .PersistentVolume p)).2.2.1 rfl
  intro b hbm u hum hid
  obtain ⟨h1, h2, h3⟩ := hbase_cases b hbm
  have hk : b.gvk.Kind = u.gvk.Kind := congrArg Prod.fst hid
  have hn : b.Name = u.Name := congrArg (fun p => p.2.2) hid
  rcases huser_cases u hum with h | h | h
  · exact h1 (hk.trans h)
  · exact h2 (hk.trans h)
  · exact h3 ⟨hk.trans h.1, hn.trans h.2⟩

/-- C8, amended, at a concrete input: `sampleClient` with `sampleManifest`. -/
theorem base_user_disjoint_witness :
    (∀ n ∈ sampleNamespaces,
      n.Name ≠ (quietEnv sampleClient sampleManifest).DefaultUserNamespace) ∧
    ∀ b ∈ sampleBase, ∀ u ∈ sampleUser, identity b ≠ identity u :=
  ⟨by decide,
   base_user_disjoint (quietEnv sampleClient sampleManifest) sampleClient sampleManifest
    sampleNamespaces sampleBase sampleUser rfl rfl rfl rfl
    (typedScheme_resolves sampleClient rfl) (by decide) (by decide)⟩

/-- C9: when the first `k` `Get` calls for a resource find it and the next
one reports `NotFound`, the wait for that resource ends, with any fuel of at
least `k`, after exactly `k + 1` `Get` calls and records no error. -/
theorem waitOne_gone (c : Client) (r : Object) (h : List Call) (errs : List Err)
    (k : Nat) (e : Err) (fuel : Nat)
    (hfound : ∀ j, j < k →
      c.get (h ++ List.replicate j (getCall r)) r.gvk r.Namespace r.Name = none)
    (hgone : c.get (h ++ List.replicate k (getCall r)) r.gvk r.Namespace r.Name = some e)
    (hnf : e.notFound = true) (hfuel : k ≤ fuel) :
    waitOne c fuel r h errs = some (h ++ List.replicate (k + 1) (getCall r), errs) := by
  cases k with
  | zero =>
    simp only [List.replicate_zero, List.append_nil] at hgone
    simp [waitOne, hgone, IsNotFound, hnf, getCall]
  | succ k =>
    have h0 := hfound 0 (Nat.succ_pos k)
    simp only [List.replicate_zero, List.append_nil] at h0
    have hshift : ∀ j, h ++ List.replicate (j + 1) (getCall r) =
        (h ++ [getCall r]) ++ List.replicate j (getCall r) := by
      intro j
      simp [List.replicate_succ]
    have hrec := waitLoop_gone c r k (h ++ [getCall r]) errs e fuel
      (fun j hj => by rw [← hshift]; exact hfound (j + 1) (Nat.succ_lt_succ hj))
      (by rw [← hshift]; exact hgone) hnf (by omega)
    rw [hshift (k + 1)]
    simp only [waitOne, h0, IsNotFound, Option.isSome_none]
    simpa [getCall] using hrec

/-- C9 at the input of the specification: found, found, `NotFound`. -/
theorem waitOne_gone_witness :
    slowDeleteClient.get ([] ++ List.replicate 2 (getCall crdObject)) crdObject.gvk
        crdObject.Namespace crdObject.Name = some gone ∧
    waitOne slowDeleteClient 2 crdObject [] [] =
      some ([] ++ List.replicate (2 + 1) (getCall crdObject), []) :=
  ⟨rfl, waitOne_gone slowDeleteClient crdObject [] [] 2 gone 2
    (fun j hj => by interval_cases j <;> rfl) rfl rfl (Nat.le_refl 2)⟩

/-- C10 as stated fails: of two managed secrets named "x" in the namespaces
"a" and "a-b", `userResources` returns the one of "a-b" first, although the
pair ("a", "x") is below the pair ("a-b", "x"). -/
theorem userResources_not_pair_sorted :
    (userResources (quietEnv twoSecretsClient []) twoSecretsClient []).2 =
      .ok [acornNamespace, secretObject "a-b" "x", secretObject "a" "x"] ∧
    ¬ namespaceNameLE (secretObject "a-b" "x") (secretObject "a" "x") ∧
    namespaceNameLE (secretObject "a" "x") (secretObject "a-b" "x") := by
  refine ⟨rfl, ?_, Or.inl ((stringLess_iff _ _).1 (by decide))⟩
  rintro (h | h)
  · exact absurd ((stringLess_iff _ _).2 h) (by decide)
  · exact absurd h.1 (by decide)

/-- C10, amended: `userResources` returns the default user namespace object
first, then the managed secrets in non-decreasing order of their identity key
(the string `namespace/name`, or the bare name when the namespace is empty),
then the managed persistent volumes in non-decreasing order of their identity
key. -/
theorem userResources_order (env : Env) (c : Client) (h : List Call)
    (secrets pvs : List Item)
    (hs : c.list h .Secret true = .ok secrets)
    (hp : c.list (h ++ [Call.list .Secret true]) .PersistentVolume true = .ok pvs) :
    ∃ (d : Object) (S P : List Object),
      (userResources env c h).2 = .ok (d :: (S ++ P)) ∧
      (d.goType = .Namespace ∧ d.Namespace = "" ∧ d.Name = env.DefaultUserNamespace) ∧
      (∀ s ∈ S, s.goType = .Secret) ∧
      (S.map fun o => (o.Namespace, o.Name)).Perm (secrets.map fun i => (i.Namespace, i.Name)) ∧
      S.Pairwise (fun a b => key a ≤ key b) ∧
      (∀ p ∈ P, p.goType = .PersistentVolume) ∧
      (P.map fun o => (o.Namespace, o.Name)).Perm (pvs.map fun i => (i.Namespace, i.Name)) ∧
      P.Pairwise (fun a b => key a ≤ key b) := by
  have hsorted : ∀ (t : GoType) (items : List Item),
      (∀ s ∈ ((sortSlice (fun i j => stringLess (key (i.toObject t)) (key (j.toObject t)))
          items).map (Item.toObject t)).map (setGVK c), s.goType = t) ∧
      ((((sortSlice (fun i j => stringLess (key (i.toObject t)) (key (j.toObject t)))
          items).map (Item.toObject t)).map (setGVK c)).map
            fun o => (o.Namespace, o.Name)).Perm (items.map fun i => (i.Namespace, i.Name)) ∧
      (((sortSlice (fun i j => stringLess (key (i.toObject t)) (key (j.toObject t)))
          items).map (Item.toObject t)).map (setGVK c)).Pairwise
            (fun a b => key a ≤ key b) := by
    intro t items
    refine ⟨?_, ?_, ?_⟩
    · intro s hsm
      simp only [List.mem_map] at hsm
      obtain ⟨o, ⟨i, _, rfl⟩, rfl⟩ := hsm
      rw [setGVK_goType]; rfl
    · rw [List.map_map, List.map_map]
      have hfun : (((fun o : Object => (o.Namespace, o.Name)) ∘ setGVK c) ∘ Item.toObject t) =
          fun i : Item => (i.Namespace, i.Name) := by
        funext i
        simp [Function.comp, setGVK_Namespace, setGVK_Name, Item.toObject]
      rw [hfun]
      exact (sortSlice_perm _ items).map _
    · rw [List.pairwise_map, List.pairwise_map]
      simp only [key_setGVK]
      exact sortSlice_sorted _ (fun i => key (i.toObject t))
        (fun a b => stringLess_iff _ _) items
  refine ⟨setGVK c ⟨.Namespace, ⟨"", "", ""⟩, "", env.DefaultUserNamespace⟩,
      _, _, ?_, ?_, (hsorted .Secret secrets).1,
      (hsorted .Secret secrets).2.1, (hsorted .Secret secrets).2.2,
      (hsorted .PersistentVolume pvs).1, (hsorted .PersistentVolume pvs).2.1,
      (hsorted .PersistentVolume pvs).2.2⟩
  · simp [userResources, hs, hp, setGVKs]
  · simp [setGVK_goType, setGVK_Namespace, setGVK_Name]

/-- C10, amended, at a concrete input: the two secrets of `twoSecretsClient`. -/
theorem userResources_order_witness :
    twoSecretsClient.list [] .Secret true =
      .ok [{ gvk := ⟨"", "", ""⟩, Namespace := "a", Name := "x" },
           { gvk := ⟨"", "", ""⟩, Namespace := "a-b", Name := "x" }] ∧
    ∃ (d : Object) (S P : List Object),
      (userResources (quietEnv twoSecretsClient []) twoSecretsClient []).2 =
        .ok (d :: (S ++ P)) ∧
      (d.goType = .Namespace ∧ d.Namespace = "" ∧
        d.Name = (quietEnv twoSecretsClient []).DefaultUserNamespace) ∧
      (∀ s ∈ S, s.goType = .Secret) ∧
      (S.map fun o => (o.Namespace, o.Name)).Perm
        (([{ gvk := ⟨"", "", ""⟩, Namespace := "a", Name := "x" },
           { gvk := ⟨"", "", ""⟩, Namespace := "a-b", Name := "x" }] : List Item).map
          fun i => (i.Namespace, i.Name)) ∧
      S.Pairwise (fun a b => key a ≤ key b) ∧
      (∀ p ∈ P, p.goType = .PersistentVolume) ∧
      (P.map fun o => (o.Namespace, o.Name)).Perm
        (([] : List Item).map fun i => (i.Namespace, i.Name)) ∧
      P.Pairwise (fun a b => key a ≤ key b) :=
  ⟨rfl, userResources_order (quietEnv twoSecretsClient []) twoSecretsClient [] _ [] rfl rfl⟩

end uninstall
